import Mathlib

/-!
Verification of the layout-resolution core of `packages/bazel/src/ng_package/packager.ts`.

Strings are embedded as `List Char`. File paths handed to the modelled
functions are the strings the TypeScript code manipulates; external
collaborators (`fs`, `shx`, `path.relative`, argument parsing) are out of
scope per the design document and appear only as the already-computed values
they would supply.
-/

namespace Packager

/-- JavaScript `String.prototype.startsWith` (`packager.ts` line 99,
`relative.startsWith(secondary)`): `lstartsWith s p = true` iff `p` is a
prefix of `s`. -/
def lstartsWith : List Char → List Char → Bool
  | _, [] => true
  | [], _ :: _ => false
  | c :: s, p :: ps => (c == p) && lstartsWith s ps

/-- JavaScript `String.prototype.endsWith` (`packager.ts` lines 14, 89, 91,
127): true iff the second list is a suffix of the first. -/
def lendsWith (s suf : List Char) : Bool :=
  lstartsWith s.reverse suf.reverse

/-- JavaScript `Array.prototype.join(sep)` for a one-character separator
(`packager.ts` lines 59, 64, 73). -/
def joinWith (sep : Char) : List (List Char) → List Char
  | [] => []
  | [s] => s
  | s :: t :: rest => s ++ sep :: joinWith sep (t :: rest)

/-- JavaScript `String.prototype.split('__')` (`packager.ts` line 72):
split at each non-overlapping occurrence of the two-underscore delimiter,
left to right. -/
def splitUU : List Char → List (List Char)
  | [] => [[]]
  | [c] => [[c]]
  | c :: d :: rest =>
    if c = '_' ∧ d = '_' then
      [] :: splitUU rest
    else
      match splitUU (d :: rest) with
      | [] => [[c]]
      | s :: ss => (c :: s) :: ss

/-- JavaScript `String.prototype.split(sep)` for a one-character separator
(`packager.ts` lines 56, 100, 155). -/
def splitOnChar (sep : Char) : List Char → List (List Char)
  | [] => [[]]
  | c :: rest =>
    if c = sep then
      [] :: splitOnChar sep rest
    else
      match splitOnChar sep rest with
      | [] => [[c]]
      | s :: ss => (c :: s) :: ss

/-- JavaScript `s.replace(/\..*/, '')` (`packager.ts` line 73): the single
(first) match starts at the first `'.'` and runs to the end of the line,
because `.` in a JavaScript regular expression does not match a newline. -/
def replaceFirstDotMatch (s : List Char) : List Char :=
  match s.dropWhile (fun c => c != '.') with
  | [] => s
  | _ :: t => s.takeWhile (fun c => c != '.') ++ t.dropWhile (fun c => c != '\n')

/-- Entry-point name derived from a FESM artifact's base file name
(`packager.ts` lines 72-73): split the base name on `'__'`, join the parts
with `'/'`, and strip from the first `'.'` on. -/
def entryPointNameOf (base : List Char) : List Char :=
  replaceFirstDotMatch (joinWith '/' (splitUU base))

/-- The entry-point resolution state of one packaging run (`packager.ts`
lines 30-31).  `secondaries` models the JavaScript `Set` together with its
insertion order. -/
structure EPState where
  primary : Option (List Char)
  secondaries : List (List Char)
  deriving DecidableEq, Repr

/-- JavaScript `Set.prototype.add` preserving insertion order
(`packager.ts` line 77). -/
def addToSet (l : List (List Char)) (x : List Char) : List (List Char) :=
  if x ∈ l then l else l ++ [x]

/-- Classification of one derived entry-point name (`packager.ts`
lines 74-78). -/
def classify (name : List Char) (st : EPState) : EPState :=
  if st.primary = none ∨ st.primary = some name then
    { st with primary := some name }
  else
    { st with secondaries := addToSet st.secondaries name }

/-- Folding the classification step of `writeFesm` over a list of FESM base
file names, starting from an arbitrary state. -/
def runFrom (st : EPState) (files : List (List Char)) : EPState :=
  files.foldl (fun st f => classify (entryPointNameOf f) st) st

/-- The resolution state after `writeFesm` (`packager.ts` lines 71-78) has
been applied to every FESM base file name in input order (`packager.ts`
lines 114-115), starting from the initial state of `main`
(`packager.ts` lines 30-31). -/
def writeFesmRun (files : List (List Char)) : EPState :=
  runFrom ⟨none, []⟩ files

theorem mem_addToSet_self (l : List (List Char)) (x : List Char) :
    x ∈ addToSet l x := by
  unfold addToSet
  by_cases h : x ∈ l
  · rw [if_pos h]; exact h
  · rw [if_neg h]; simp

theorem mem_addToSet_of_mem (l : List (List Char)) (x y : List Char)
    (h : y ∈ l) : y ∈ addToSet l x := by
  unfold addToSet
  by_cases hx : x ∈ l
  · rwa [if_pos hx]
  · rw [if_neg hx]; simp [h]

theorem not_mem_addToSet (l : List (List Char)) (x y : List Char)
    (hne : y ≠ x) (h : y ∉ l) : y ∉ addToSet l x := by
  unfold addToSet
  by_cases hx : x ∈ l
  · rwa [if_pos hx]
  · rw [if_neg hx]; simp [h, hne]

theorem nodup_addToSet (l : List (List Char)) (x : List Char)
    (h : l.Nodup) : (addToSet l x).Nodup := by
  unfold addToSet
  by_cases hx : x ∈ l
  · rwa [if_pos hx]
  · rw [if_neg hx]; simp [List.nodup_append, h, hx]

theorem classify_primary_stable (st : EPState) (n p : List Char)
    (h : st.primary = some p) : (classify n st).primary = some p := by
  unfold classify
  by_cases hc : st.primary = none ∨ st.primary = some n
  · rw [if_pos hc]
    rcases hc with hc | hc
    · rw [h] at hc; exact absurd hc (by simp)
    · rw [h] at hc
      simpa using hc.symm
  · rw [if_neg hc]
    exact h

theorem classify_eq_of_primary (st : EPState) (n p : List Char)
    (h : st.primary = some p) :
    (n = p ∧ classify n st = st) ∨
    (n ≠ p ∧ classify n st = { st with secondaries := addToSet st.secondaries n }) := by
  by_cases hnp : n = p
  · left
    refine ⟨hnp, ?_⟩
    subst hnp
    unfold classify
    rw [if_pos (Or.inr h)]
    cases st with
    | mk pr se =>
      simp only at h
      simp [h]
  · right
    refine ⟨hnp, ?_⟩
    unfold classify
    rw [if_neg]
    intro hc
    rcases hc with hc | hc
    · rw [h] at hc; exact absurd hc (by simp)
    · rw [h] at hc
      exact hnp (by simpa using hc.symm)

theorem runFrom_inv (p : List Char) (l : List (List Char)) :
    ∀ st : EPState, st.primary = some p →
      (runFrom st l).primary = some p
      ∧ (∀ s ∈ st.secondaries, s ∈ (runFrom st l).secondaries)
      ∧ (∀ f ∈ l, entryPointNameOf f ≠ p →
          entryPointNameOf f ∈ (runFrom st l).secondaries)
      ∧ (p ∉ st.secondaries → st.secondaries.Nodup →
          p ∉ (runFrom st l).secondaries ∧ (runFrom st l).secondaries.Nodup) := by
  induction l with
  | nil =>
    intro st h
    refine ⟨h, ?_, ?_, ?_⟩
    · intro s hs; exact hs
    · intro f hf; cases hf
    · intro h1 h2; exact ⟨h1, h2⟩
  | cons f fs ih =>
    intro st h
    have hrun : runFrom st (f :: fs) = runFrom (classify (entryPointNameOf f) st) fs := rfl
    have h' : (classify (entryPointNameOf f) st).primary = some p :=
      classify_primary_stable st _ p h
    obtain ⟨ih1, ih2, ih3, ih4⟩ := ih (classify (entryPointNameOf f) st) h'
    rcases classify_eq_of_primary st (entryPointNameOf f) p h with ⟨heq, hcl⟩ | ⟨hne, hcl⟩
    · refine ⟨by rwa [hrun], ?_, ?_, ?_⟩
      · intro s hs
        rw [hrun]
        exact ih2 s (by rwa [hcl])
      · intro g hg hgp
        rw [hrun]
        rcases List.mem_cons.mp hg with hg | hg
        · exact absurd (hg ▸ heq) hgp
        · exact ih3 g hg hgp
      · intro hp hnd
        rw [hrun]
        exact ih4 (by rwa [hcl]) (by rwa [hcl])
    · refine ⟨by rwa [hrun], ?_, ?_, ?_⟩
      · intro s hs
        rw [hrun]
        refine ih2 s ?_
        rw [hcl]
        exact mem_addToSet_of_mem _ _ _ hs
      · intro g hg hgp
        rw [hrun]
        rcases List.mem_cons.mp hg with hg | hg
        · subst hg
          refine ih2 _ ?_
          rw [hcl]
          exact mem_addToSet_self _ _
        · exact ih3 g hg hgp
      · intro hp hnd
        rw [hrun]
        refine ih4 ?_ ?_
        · rw [hcl]
          exact not_mem_addToSet _ _ _ (fun he => hne he.symm) hp
        · rw [hcl]
          exact nodup_addToSet _ _ hnd

/-- C1: processing FESM artifact names in input order, the first derived
name becomes (and stays) the primary entry point; every distinct subsequent
name lands in the secondary set; the primary is never in the secondary set;
the secondary set has no duplicates; and `classify` never overwrites a
primary that is already set. -/
theorem c1_entry_point_classification (f : List Char) (fs : List (List Char)) :
    (writeFesmRun (f :: fs)).primary = some (entryPointNameOf f)
    ∧ (∀ g ∈ f :: fs, entryPointNameOf g ≠ entryPointNameOf f →
        entryPointNameOf g ∈ (writeFesmRun (f :: fs)).secondaries)
    ∧ entryPointNameOf f ∉ (writeFesmRun (f :: fs)).secondaries
    ∧ (writeFesmRun (f :: fs)).secondaries.Nodup
    ∧ (∀ (st : EPState) (n q : List Char), st.primary = some q →
        (classify n st).primary = some q) := by
  have hini : classify (entryPointNameOf f) ⟨none, []⟩
      = (⟨some (entryPointNameOf f), []⟩ : EPState) := by
    unfold classify
    rw [if_pos (Or.inl rfl)]
  have hrun : writeFesmRun (f :: fs)
      = runFrom (⟨some (entryPointNameOf f), []⟩ : EPState) fs := by
    show runFrom (classify (entryPointNameOf f) ⟨none, []⟩) fs = _
    rw [hini]
  obtain ⟨h1, _h2, h3, h4⟩ :=
    runFrom_inv (entryPointNameOf f) fs (⟨some (entryPointNameOf f), []⟩ : EPState) rfl
  obtain ⟨h5, h6⟩ := h4 (by simp) (by simp)
  refine ⟨by rwa [hrun], ?_, by rwa [hrun], by rwa [hrun], ?_⟩
  · intro g hg hgp
    rw [hrun]
    rcases List.mem_cons.mp hg with hg | hg
    · exact absurd (by rw [hg]) hgp
    · exact h3 g hg hgp
  · intro st n q hq
    exact classify_primary_stable st n q hq

/-- Witness for C1 at a concrete input list. -/
theorem c1_entry_point_classification_witness :
    (writeFesmRun [("core.js").data, ("core__testing.js").data, ("core.js").data]).primary
        = some (("core").data)
    ∧ ("core/testing").data
        ∈ (writeFesmRun [("core.js").data, ("core__testing.js").data, ("core.js").data]).secondaries
    ∧ ("core").data
        ∉ (writeFesmRun [("core.js").data, ("core__testing.js").data, ("core.js").data]).secondaries
    ∧ (writeFesmRun [("core.js").data, ("core__testing.js").data, ("core.js").data]).secondaries.Nodup := by
  have h := c1_entry_point_classification (("core.js").data)
    [("core__testing.js").data, ("core.js").data]
  exact ⟨h.1, h.2.1 (("core__testing.js").data) (by simp) (by decide), h.2.2.1, h.2.2.2.1⟩

def extDts : List Char := (".d.ts").data

def extMeta : List Char := (".metadata.json").data

def errBundleIndexMsg : List Char :=
  ("Bundle index files should be .d.ts or .metadata.json").data

/-- JavaScript string coercion used by `primaryEntryPoint + ext`
(`packager.ts` line 105): when `primaryEntryPoint` is still `null`, the
concatenation stringifies it to the literal text `null`. -/
def nullLiteral : List Char := ("null").data

def primaryToString : Option (List Char) → List Char
  | none => nullLiteral
  | some p => p

/-- Node `path.join` for already-normalized segment strings: empty and `"."`
segments are dropped, the rest joined with `'/'`; with nothing left the
result is `"."` (`packager.ts` lines 101, 105, 130, 142, 156). -/
def nodeJoin (segs : List (List Char)) : List Char :=
  match segs.filter (fun s => !(s.isEmpty || s == ('.' :: []))) with
  | [] => '.' :: []
  | s :: ss => joinWith '/' (s :: ss)

/-- `secondary.split('/').pop()` (`packager.ts` line 100). -/
def lastSeg (name : List Char) : List Char :=
  (splitOnChar '/' name).getLastD []

/-- The extension classification at the top of `moveBundleIndex`
(`packager.ts` lines 87-94). -/
def extOf (f : List Char) : Option (List Char) :=
  if lendsWith f extDts then some extDts
  else if lendsWith f extMeta then some extMeta
  else none

/-- The loop of `moveBundleIndex` (`packager.ts` lines 98-103): every
matching secondary overwrites `outputPath`, so the surviving value belongs
to the last matching secondary in insertion order. -/
def lastPrefixMatch (relative : List Char) (secs : List (List Char)) :
    Option (List Char) :=
  secs.foldl (fun acc sec => if lstartsWith relative sec then some sec else acc) none

/-- `moveBundleIndex` (`packager.ts` lines 86-108) acting on the path of the
bundle-index artifact relative to the build-output root (the computation of
`path.relative(binDir, f)` itself is an external path operation). -/
def moveBundleIndex (out relative : List Char) (primary : Option (List Char))
    (secs : List (List Char)) : Except (List Char) (List Char) :=
  match extOf relative with
  | none => .error errBundleIndexMsg
  | some ext =>
    match lastPrefixMatch relative secs with
    | some sec => .ok (nodeJoin [out, sec, lastSeg sec ++ ext])
    | none => .ok (nodeJoin [out, primaryToString primary ++ ext])

theorem foldl_match_acc (relative : List Char) (l : List (List Char))
    (acc : Option (List Char)) (h : ∀ x ∈ l, lstartsWith relative x = false) :
    l.foldl (fun acc sec => if lstartsWith relative sec then some sec else acc) acc
      = acc := by
  induction l generalizing acc with
  | nil => rfl
  | cons s ss ih =>
    have hs : lstartsWith relative s = false := h s (by simp)
    rw [List.foldl_cons]
    rw [ih _ (fun x hx => h x (by simp [hx]))]
    simp [hs]

theorem lastPrefixMatch_eq_none (relative : List Char) (secs : List (List Char))
    (h : ∀ x ∈ secs, lstartsWith relative x = false) :
    lastPrefixMatch relative secs = none :=
  foldl_match_acc relative secs none h

theorem lastPrefixMatch_last (relative : List Char) (l1 l2 : List (List Char))
    (m : List Char) (hm : lstartsWith relative m = true)
    (h2 : ∀ x ∈ l2, lstartsWith relative x = false) :
    lastPrefixMatch relative (l1 ++ m :: l2) = some m := by
  unfold lastPrefixMatch
  rw [List.foldl_append, List.foldl_cons]
  rw [foldl_match_acc relative l2 _ h2]
  simp [hm]

/-- C2 (amended): among the secondary entry-point names, iterated in
insertion order, the LAST name that is a prefix of the artifact's
build-output-relative path determines the destination
`<out>/<name>/<lastSegment of name><ext>`; only when no secondary name
matches does the destination fall back to `<out>/<primary><ext>`. -/
theorem c2_move_bundle_index (out relative : List Char)
    (primary : Option (List Char)) (ext : List Char) :
    (∀ (l1 l2 : List (List Char)) (m : List Char),
      extOf relative = some ext →
      lstartsWith relative m = true →
      (∀ x ∈ l2, lstartsWith relative x = false) →
      moveBundleIndex out relative primary (l1 ++ m :: l2)
        = .ok (nodeJoin [out, m, lastSeg m ++ ext]))
    ∧ (∀ secs : List (List Char),
      extOf relative = some ext →
      (∀ x ∈ secs, lstartsWith relative x = false) →
      moveBundleIndex out relative primary secs
        = .ok (nodeJoin [out, primaryToString primary ++ ext])) := by
  constructor
  · intro l1 l2 m hext hm h2
    unfold moveBundleIndex
    rw [hext, lastPrefixMatch_last relative l1 l2 m hm h2]
  · intro secs hext hsec
    unfold moveBundleIndex
    rw [hext, lastPrefixMatch_eq_none relative secs hsec]

/-- Counterexample to C2 as stated: with secondaries inserted in order
`core`, `core/testing`, a path both names prefix is routed by the LAST
match (`core/testing`), not the first (`core`, which would give
`o/core/core.d.ts`). -/
theorem c2_first_match_counterexample :
    moveBundleIndex (("o").data) (("core/testing/testing.bundle_index.d.ts").data)
        (some (("common").data)) [("core").data, ("core/testing").data]
      = .ok (("o/core/testing/testing.d.ts").data)
    ∧ (("o/core/testing/testing.d.ts").data) ≠ (("o/core/core.d.ts").data) := by
  exact ⟨rfl, by decide⟩

/-- Witness for C2's amended theorem at a concrete input. -/
theorem c2_move_bundle_index_witness :
    moveBundleIndex (("o").data) (("testing/testing.bundle_index.d.ts").data)
        (some (("core").data)) [("common").data, ("testing").data]
      = .ok (("o/testing/testing.d.ts").data) := by
  exact (c2_move_bundle_index (("o").data)
    (("testing/testing.bundle_index.d.ts").data) (some (("core").data)) extDts).1
    [("common").data] [] (("testing").data) (by decide) (by decide) (by simp)

/-- C10: when the primary entry point is still unset (`null`) and no
secondary name matches, `moveBundleIndex` raises no error and returns the
fallback destination built from the literal text `null`. -/
theorem c10_null_primary_fallback (out relative : List Char)
    (secs : List (List Char)) (ext : List Char)
    (hext : extOf relative = some ext)
    (hsec : ∀ x ∈ secs, lstartsWith relative x = false) :
    moveBundleIndex out relative none secs
      = .ok (nodeJoin [out, nullLiteral ++ ext]) := by
  unfold moveBundleIndex
  rw [hext, lastPrefixMatch_eq_none relative secs hsec]
  rfl

/-- Witness for C10 at a concrete input. -/
theorem c10_null_primary_fallback_witness :
    moveBundleIndex (("o").data) (("core.bundle_index.d.ts").data) none []
      = .ok (("o/null.d.ts").data) := by
  exact c10_null_primary_fallback (("o").data) (("core.bundle_index.d.ts").data)
    [] extDts (by decide) (by simp)

theorem joinWith_cons_head (sep c : Char) (s : List Char) (ss : List (List Char)) :
    joinWith sep ((c :: s) :: ss) = c :: joinWith sep (s :: ss) := by
  cases ss <;> simp [joinWith]

/-- One-position match of the RegExp built from `'0.0.0' + '-PLACEHOLDER'`
(`packager.ts` lines 38-41): `0` and `-PLACEHOLDER` match literally, while
each `.` of the pattern is a regular-expression wildcard matching any
single character other than a line terminator.  Every match is exactly 17
characters long. -/
def placeholderMatch (s : List Char) : Bool :=
  match s with
  | c0 :: c1 :: c2 :: c3 :: c4 :: rest =>
    (c0 == '0') && (c1 != '\n') && (c1 != '\r') && (c1 != '\u2028') && (c1 != '\u2029')
      && (c2 == '0')
      && (c3 != '\n') && (c3 != '\r') && (c3 != '\u2028') && (c3 != '\u2029')
      && (c4 == '0') && lstartsWith rest (("-PLACEHOLDER").data)
  | _ => false

/-- Fuel-driven worker for `content.replace(regex, repl)` with the global
sentinel RegExp: scan left to right, replace each 17-character match, and
continue after it.  The fuel is the length of the remaining input, so it
never runs out. -/
def rvGo (repl : List Char) : Nat → List Char → List Char
  | _, [] => []
  | 0, s => s
  | fuel + 1, c :: rest =>
    if placeholderMatch (c :: rest) = true then
      repl ++ rvGo repl fuel (List.drop 17 (c :: rest))
    else
      c :: rvGo repl fuel rest

/-- JavaScript `content.replace(new RegExp('0.0.0' + '-PLACEHOLDER', 'g'),
version)` (`packager.ts` lines 37-42), for replacement strings that
contain no `'$'` (a `'$'` in the replacement would trigger JavaScript's
dollar escape sequences, which this model does not reproduce; the theorems
below assume a `'$'`-free version). -/
def replacePlaceholderAll (repl s : List Char) : List Char :=
  rvGo repl s.length s

/-- The version-sentinel text itself (`packager.ts` lines 39-40); the
source assembles it from two string fragments so the packager does not
match its own source, and the model mirrors that. -/
def versionPlaceholder : List Char :=
  (("0.0.0").data) ++ (("-PLACEHOLDER").data)

/-- `replaceVersionPlaceholders` (`packager.ts` lines 33-45): the optional
argument is the version extracted from the stamp file by the external
`grep`/`split`/`trim` pipeline; `none` models absent stamp data. -/
def replaceVersionPlaceholders (stampVersion : Option (List Char))
    (content : List Char) : List Char :=
  match stampVersion with
  | some version => replacePlaceholderAll version content
  | none => content

/-- Whether a literal pattern occurs anywhere in a string. -/
def occursIn (pat : List Char) : List Char → Bool
  | [] => pat.isEmpty
  | c :: rest => lstartsWith (c :: rest) pat || occursIn pat rest

/-- Whether the sentinel RegExp matches anywhere in a string. -/
def placeholderOccurs : List Char → Bool
  | [] => false
  | c :: rest => placeholderMatch (c :: rest) || placeholderOccurs rest

theorem replacePlaceholderAll_of_no_match (repl : List Char) :
    ∀ s : List Char, placeholderOccurs s = false →
      replacePlaceholderAll repl s = s := by
  intro s
  induction s with
  | nil =>
    intro _
    rfl
  | cons c rest ih =>
    intro h
    simp only [placeholderOccurs, Bool.or_eq_false_iff] at h
    obtain ⟨h1, h2⟩ := h
    show rvGo repl (rest.length + 1) (c :: rest) = c :: rest
    simp only [rvGo]
    rw [if_neg (fun hc => by rw [h1] at hc; cases hc)]
    exact congrArg (List.cons c) (ih h2)

/-- C8 (amended): placeholder substitution is the identity when stamp data
is absent; when stamp data is present it replaces, left to right, every
match of the sentinel RegExp (whose dots match any single non-line-terminator
character), and for a `'$'`-free version it is idempotent whenever the
sentinel pattern no longer matches anywhere in the once-substituted
output. -/
theorem c8_placeholder_substitution :
    (∀ content : List Char, replaceVersionPlaceholders none content = content)
    ∧ (∀ v content : List Char, '$' ∉ v →
        placeholderOccurs (replaceVersionPlaceholders (some v) content) = false →
        replaceVersionPlaceholders (some v) (replaceVersionPlaceholders (some v) content)
          = replaceVersionPlaceholders (some v) content) := by
  constructor
  · intro content
    rfl
  · intro v content _ h
    exact replacePlaceholderAll_of_no_match v _ h

/-- Counterexample to C8 as stated: with version `0.0.0` and a content made
of the sentinel followed by `-PLACEHOLDER`, one application yields the
sentinel again, so a second application changes the result. -/
theorem c8_idempotence_counterexample :
    replaceVersionPlaceholders (some (("0.0.0").data))
        (replaceVersionPlaceholders (some (("0.0.0").data))
          (versionPlaceholder ++ (("-PLACEHOLDER").data)))
      ≠ replaceVersionPlaceholders (some (("0.0.0").data))
          (versionPlaceholder ++ (("-PLACEHOLDER").data)) := by
  decide

/-- Witness for C8's amended theorem at concrete inputs.  The second input
also exercises a wildcard (non-literal) match: `0x0y0-PLACEHOLDER` is
replaced even though it is not the literal sentinel. -/
theorem c8_placeholder_substitution_witness :
    replaceVersionPlaceholders none (("abc").data) = ("abc").data
    ∧ replaceVersionPlaceholders (some (("1.2.3").data))
        (replaceVersionPlaceholders (some (("1.2.3").data))
          (versionPlaceholder ++ (("!").data)))
      = replaceVersionPlaceholders (some (("1.2.3").data))
          (versionPlaceholder ++ (("!").data))
    ∧ replaceVersionPlaceholders (some (("1.2.3").data))
        (replaceVersionPlaceholders (some (("1.2.3").data))
          (("a 0x0y0-PLACEHOLDER b").data))
      = replaceVersionPlaceholders (some (("1.2.3").data))
          (("a 0x0y0-PLACEHOLDER b").data) := by
  exact ⟨c8_placeholder_substitution.1 (("abc").data),
    c8_placeholder_substitution.2 (("1.2.3").data)
      (versionPlaceholder ++ (("!").data)) (by decide) (by decide),
    c8_placeholder_substitution.2 (("1.2.3").data)
      (("a 0x0y0-PLACEHOLDER b").data) (by decide) (by decide)⟩

def ngfactoryTag : List Char := (".ngfactory").data

def ngsummaryTag : List Char := (".ngsummary").data

/-- The `filter(ext)` predicate factory (`packager.ts` lines 13-15). -/
def filterExt (ext f : List Char) : Bool :=
  lendsWith f ext && !(lendsWith f (ngfactoryTag ++ ext))
    && !(lendsWith f (ngsummaryTag ++ ext))

def bundleIndexDts : List Char := (".bundle_index.d.ts").data

def bundleIndexMeta : List Char := (".bundle_index.metadata.json").data

/-- Destination of a `.d.ts` artifact from the build-output tree, given by
its binDir-relative path (`packager.ts` lines 126-131). -/
def dtsDest (out f : List Char) (prim : Option (List Char))
    (secs : List (List Char)) : Except (List Char) (List Char) :=
  if lendsWith f bundleIndexDts then moveBundleIndex out f prim secs
  else .ok (nodeJoin [out, f])

/-- The write plan `main` produces from the recursive build-output scan
(`packager.ts` lines 121-134 and 147-150): the `.d.ts` pass followed by the
`.bundle_index.metadata.json` pass.  Each element pairs a scanned file's
binDir-relative path with its computed destination. -/
def binDirWrites (out : List Char) (prim : Option (List Char))
    (secs files : List (List Char)) :
    List (List Char × Except (List Char) (List Char)) :=
  (files.filter (filterExt extDts)).map (fun f => (f, dtsDest out f prim secs))
    ++ (files.filter (filterExt bundleIndexMeta)).map
        (fun f => (f, moveBundleIndex out f prim secs))

theorem lstartsWith_head (s : List Char) (p : Char) (ps : List Char)
    (h : lstartsWith s (p :: ps) = true) : ∃ s', s = p :: s' := by
  cases s with
  | nil => cases h
  | cons c s' =>
    simp only [lstartsWith, Bool.and_eq_true, beq_iff_eq] at h
    exact ⟨s', by rw [h.1]⟩

theorem lstartsWith_append_left (s p q : List Char)
    (h : lstartsWith s (p ++ q) = true) : lstartsWith s p = true := by
  induction p generalizing s with
  | nil => cases s <;> rfl
  | cons a ps ih =>
    cases s with
    | nil => cases h
    | cons c s' =>
      simp only [List.cons_append, lstartsWith, Bool.and_eq_true] at h ⊢
      exact ⟨h.1, ih s' h.2⟩

theorem lendsWith_of_append (f a b : List Char)
    (h : lendsWith f (a ++ b) = true) : lendsWith f b = true := by
  unfold lendsWith at h ⊢
  rw [List.reverse_append] at h
  exact lstartsWith_append_left _ _ _ h

theorem not_dts_and_meta (f : List Char) (h1 : lendsWith f extDts = true)
    (h2 : lendsWith f extMeta = true) : False := by
  unfold lendsWith at h1 h2
  rw [show extDts.reverse = 's' :: (("t.d.").data) from rfl] at h1
  rw [show extMeta.reverse = 'n' :: (("osj.atadatem.").data) from rfl] at h2
  obtain ⟨s1, hs1⟩ := lstartsWith_head _ _ _ h1
  obtain ⟨s2, hs2⟩ := lstartsWith_head _ _ _ h2
  rw [hs1] at hs2
  exact absurd (List.cons.injEq _ _ _ _ ▸ hs2).1 (by decide)

/-- C5 (amended): a `.metadata.json` artifact from the build-output tree is
never written unless it is a bundle-index metadata file; bundle-index
metadata files passing the `.ngfactory`/`.ngsummary` filter are routed
through `moveBundleIndex` rather than to `<out>/<relative path>`; and the
`.ngfactory.bundle_index.metadata.json` / `.ngsummary.bundle_index.metadata.json`
variants are themselves never written. -/
theorem c5_metadata_artifacts :
    (∀ (out : List Char) (prim : Option (List Char))
        (secs files : List (List Char)) (f : List Char),
      lendsWith f extMeta = true → lendsWith f bundleIndexMeta = false →
      ∀ w ∈ binDirWrites out prim secs files, w.1 ≠ f)
    ∧ (∀ (out : List Char) (prim : Option (List Char))
        (secs files : List (List Char)) (f : List Char),
      f ∈ files → filterExt bundleIndexMeta f = true →
      (f, moveBundleIndex out f prim secs) ∈ binDirWrites out prim secs files)
    ∧ (∀ (out : List Char) (prim : Option (List Char))
        (secs files : List (List Char)) (f : List Char),
      lendsWith f (ngfactoryTag ++ bundleIndexMeta) = true
        ∨ lendsWith f (ngsummaryTag ++ bundleIndexMeta) = true →
      ∀ w ∈ binDirWrites out prim secs files, w.1 ≠ f) := by
  refine ⟨?_, ?_, ?_⟩
  · intro out prim secs files f hmeta hnotbi w hw heq
    rcases List.mem_append.mp hw with h | h
    · obtain ⟨g, hg, hgw⟩ := List.mem_map.mp h
      have hfil : filterExt extDts g = true := (List.mem_filter.mp hg).2
      simp only [filterExt, Bool.and_eq_true] at hfil
      have hgf : g = f := by rw [← heq, ← hgw]
      rw [hgf] at hfil
      exact not_dts_and_meta f hfil.1.1 hmeta
    · obtain ⟨g, hg, hgw⟩ := List.mem_map.mp h
      have hfil : filterExt bundleIndexMeta g = true := (List.mem_filter.mp hg).2
      simp only [filterExt, Bool.and_eq_true] at hfil
      have hgf : g = f := by rw [← heq, ← hgw]
      rw [hgf] at hfil
      rw [hfil.1.1] at hnotbi
      cases hnotbi
  · intro out prim secs files f hf hfilt
    refine List.mem_append_right _ ?_
    exact List.mem_map.mpr ⟨f, List.mem_filter.mpr ⟨hf, hfilt⟩, rfl⟩
  · intro out prim secs files f hvar w hw heq
    have hmeta : lendsWith f extMeta = true := by
      rcases hvar with hv | hv <;>
        exact lendsWith_of_append f ((".bundle_index").data) extMeta
          (lendsWith_of_append f _ _ hv)
    rcases List.mem_append.mp hw with h | h
    · obtain ⟨g, hg, hgw⟩ := List.mem_map.mp h
      have hfil : filterExt extDts g = true := (List.mem_filter.mp hg).2
      simp only [filterExt, Bool.and_eq_true] at hfil
      have hgf : g = f := by rw [← heq, ← hgw]
      rw [hgf] at hfil
      exact not_dts_and_meta f hfil.1.1 hmeta
    · obtain ⟨g, hg, hgw⟩ := List.mem_map.mp h
      have hfil : filterExt bundleIndexMeta g = true := (List.mem_filter.mp hg).2
      simp only [filterExt, Bool.and_eq_true, Bool.not_eq_true'] at hfil
      have hgf : g = f := by rw [← heq, ← hgw]
      rw [hgf] at hfil
      rcases hvar with hv | hv
      · rw [hfil.1.2] at hv
        cases hv
      · rw [hfil.2] at hv
        cases hv

/-- Counterexample to C5 as stated: a plain (non-bundle-index)
`.metadata.json` artifact under the build-output root is not written at
all, in particular not to `<out>/<its relative path>`. -/
theorem c5_plain_metadata_counterexample :
    binDirWrites (("o").data) none [] [("pkg/foo.metadata.json").data] = []
    ∧ ((("pkg/foo.metadata.json").data,
        (Except.ok (("o/pkg/foo.metadata.json").data) : Except (List Char) (List Char)))
        ∉ binDirWrites (("o").data) none [] [("pkg/foo.metadata.json").data]) := by
  constructor
  · rfl
  · intro h
    have h0 : binDirWrites (("o").data) none [] [("pkg/foo.metadata.json").data]
        = [] := rfl
    rw [h0] at h
    cases h

/-- Witness for C5's amended theorem at a concrete input. -/
theorem c5_metadata_artifacts_witness :
    ((("core.bundle_index.metadata.json").data,
      moveBundleIndex (("o").data) (("core.bundle_index.metadata.json").data)
        (some (("core").data)) [])
      ∈ binDirWrites (("o").data) (some (("core").data)) []
          [("core.bundle_index.metadata.json").data]) := by
  exact c5_metadata_artifacts.2.1 (("o").data) (some (("core").data)) []
    [("core.bundle_index.metadata.json").data]
    (("core.bundle_index.metadata.json").data) (by simp) (by decide)

mutual

/-- A parsed JSON value (the result of `JSON.parse`, which is an external
language primitive; object fields keep their insertion order, as
JavaScript objects do for string keys). -/
inductive JVal where
  | jnull : JVal
  | jbool : Bool → JVal
  | jnum : Int → JVal
  | jstr : List Char → JVal
  | jarr : JArr → JVal
  | jobj : JObj → JVal

inductive JArr where
  | anil : JArr
  | acons : JVal → JArr → JArr

inductive JObj where
  | onil : JObj
  | ocons : List Char → JVal → JObj → JObj

end

def hexDigit (n : Nat) : Char :=
  if n < 10 then Char.ofNat (48 + n) else Char.ofNat (87 + n)

/-- JSON string escaping as performed by `JSON.stringify`. -/
def escapeChar (c : Char) : List Char :=
  if c = '"' then '\\' :: '"' :: []
  else if c = '\\' then '\\' :: '\\' :: []
  else if c = '\n' then '\\' :: 'n' :: []
  else if c = '\r' then '\\' :: 'r' :: []
  else if c = '\t' then '\\' :: 't' :: []
  else if c = '\x08' then '\\' :: 'b' :: []
  else if c = '\x0c' then '\\' :: 'f' :: []
  else if c.toNat < 32 then
    '\\' :: 'u' :: '0' :: '0' :: hexDigit (c.toNat / 16) :: hexDigit (c.toNat % 16) :: []
  else c :: []

def jsonEscape (s : List Char) : List Char :=
  (s.map escapeChar).flatten

def quoteStr (s : List Char) : List Char :=
  '"' :: (jsonEscape s ++ ('"' :: []))

mutual

/-- Compact `JSON.stringify(v)` (no indent argument; `packager.ts`
lines 158-164): single-line output with no inserted whitespace. -/
def serC : JVal → List Char
  | .jnull => ("null").data
  | .jbool true => ("true").data
  | .jbool false => ("false").data
  | .jnum n => (toString n).data
  | .jstr s => quoteStr s
  | .jarr xs => '[' :: (serCArr xs ++ (']' :: []))
  | .jobj fs => '\x7b' :: (serCObj fs ++ ('\x7d' :: []))

def serCArr : JArr → List Char
  | .anil => []
  | .acons v .anil => serC v
  | .acons v (.acons w r) => serC v ++ ',' :: serCArr (.acons w r)

def serCObj : JObj → List Char
  | .onil => []
  | .ocons k v .onil => quoteStr k ++ ':' :: serC v
  | .ocons k v (.ocons k2 v2 r) =>
    (quoteStr k ++ ':' :: serC v) ++ ',' :: serCObj (.ocons k2 v2 r)

end

def spaces (gap : Nat) : List Char :=
  List.replicate (2 * gap) ' '

mutual

/-- Pretty `JSON.stringify(v, null, 2)` (`packager.ts` line 68): two-space
indentation per nesting level, `": "` after keys, `",\n"` between
entries. -/
def serP : Nat → JVal → List Char
  | _, .jnull => ("null").data
  | _, .jbool true => ("true").data
  | _, .jbool false => ("false").data
  | _, .jnum n => (toString n).data
  | _, .jstr s => quoteStr s
  | _, .jarr .anil => '[' :: (']' :: [])
  | gap, .jarr (.acons v r) =>
    '[' :: '\n' :: (serPArr (gap + 1) (.acons v r) ++ ('\n' :: spaces gap) ++ (']' :: []))
  | _, .jobj .onil => '\x7b' :: ('\x7d' :: [])
  | gap, .jobj (.ocons k v r) =>
    '\x7b' :: '\n' :: (serPObj (gap + 1) (.ocons k v r) ++ ('\n' :: spaces gap) ++ ('\x7d' :: []))

def serPArr : Nat → JArr → List Char
  | _, .anil => []
  | gap, .acons v .anil => spaces gap ++ serP gap v
  | gap, .acons v (.acons w r) =>
    (spaces gap ++ serP gap v) ++ ',' :: '\n' :: serPArr gap (.acons w r)

def serPObj : Nat → JObj → List Char
  | _, .onil => []
  | gap, .ocons k v .onil => spaces gap ++ (quoteStr k ++ ':' :: ' ' :: serP gap v)
  | gap, .ocons k v (.ocons k2 v2 r) =>
    (spaces gap ++ (quoteStr k ++ ':' :: ' ' :: serP gap v))
      ++ ',' :: '\n' :: serPObj gap (.ocons k2 v2 r)

end

/-- JavaScript property read on a parsed JSON object. -/
def lookupKey : JObj → List Char → Option JVal
  | .onil, _ => none
  | .ocons k v r, key => if k = key then some v else lookupKey r key

/-- JavaScript property assignment on a parsed JSON object: overwrites the
value in place if the key exists, otherwise appends the key in insertion
order. -/
def setKey : JObj → List Char → JVal → JObj
  | .onil, key, v => .ocons key v .onil
  | .ocons k w r, key, v =>
    if k = key then .ocons key v r else .ocons k w (setKey r key v)

def keyName : List Char := ("name").data

def keyMain : List Char := ("main").data

def keyModule : List Char := ("module").data

def keyEs2015 : List Char := ("es2015").data

def keyTypings : List Char := ("typings").data

/-- `packager.ts` line 58: for scoped packages drop the `@scope` segment
(`nameParts = nameParts.splice(1)` keeps the removed tail). -/
def dropScope : List (List Char) → List (List Char)
  | [] => []
  | p :: rest => if p.head? = some '@' then rest else p :: rest

/-- `packager.ts` lines 59-62: `Array(n-1).fill('..').join('/')`, replaced
by `"."` when empty. -/
def amendRel (nameParts : List (List Char)) : List Char :=
  if joinWith '/' (List.replicate (nameParts.length - 1) (("..").data)) = []
  then (".").data
  else joinWith '/' (List.replicate (nameParts.length - 1) (("..").data))

/-- The four field assignments of `amendPackageJson` (`packager.ts`
lines 63-67), applied to the parsed package for the already-computed
`nameParts`. -/
def amendFieldsCore (pkg : JObj) (nameParts : List (List Char)) : JObj :=
  setKey (setKey (setKey (setKey pkg keyMain
    (.jstr (amendRel nameParts ++ ("/bundles/").data
      ++ joinWith '-' nameParts ++ (".umd.js").data)))
    keyModule (.jstr (amendRel nameParts ++ ("/esm5/").data
      ++ nameParts.getLastD [] ++ (".js").data)))
    keyEs2015 (.jstr (amendRel nameParts ++ ("/esm2015/").data
      ++ nameParts.getLastD [] ++ (".js").data)))
    keyTypings (.jstr (("./").data ++ nameParts.getLastD [] ++ (".d.ts").data))

/-- `amendPackageJson` (`packager.ts` lines 54-68) up to serialization.  A
missing or non-string `name` makes the JavaScript code throw a TypeError;
a scope-only name makes `Array(-1)` throw a RangeError. -/
def amendFields (pkg : JObj) : Except (List Char) JObj :=
  match lookupKey pkg keyName with
  | some (.jstr nm) =>
    if dropScope (splitOnChar '/' nm) = [] then
      .error (("Invalid array length").data)
    else
      .ok (amendFieldsCore pkg (dropScope (splitOnChar '/' nm)))
  | _ => .error (("TypeError").data)

/-- `amendPackageJson` (`packager.ts` lines 54-68): the amended object
serialized with `JSON.stringify(parsedPackage, null, 2)`. -/
def amendPackageJson (pkg : JObj) : Except (List Char) (List Char) :=
  Except.map (fun fs => serP 0 (.jobj fs)) (amendFields pkg)

/-- Remove the four fields `amendPackageJson` assigns, keeping every other
field in order with its value. -/
def dropAmendedKeys : JObj → JObj
  | .onil => .onil
  | .ocons k v r =>
    if k = keyMain ∨ k = keyModule ∨ k = keyEs2015 ∨ k = keyTypings then
      dropAmendedKeys r
    else
      .ocons k v (dropAmendedKeys r)

/-- Modelled from the spec's words (§4.4 step 2): `rel` is `"."` when one
segment remains, otherwise `k-1` repetitions of `..` joined by `'/'`. -/
def specRel (parts : List (List Char)) : List Char :=
  if parts.length = 1 then (".").data
  else joinWith '/' (List.replicate (parts.length - 1) (("..").data))

def olength : JObj → Nat
  | .onil => 0
  | .ocons _ _ r => olength r + 1

theorem lookupKey_setKey_same_aux (k : List Char) (v : JVal) :
    ∀ (n : Nat) (l : JObj), olength l ≤ n →
      lookupKey (setKey l k v) k = some v := by
  intro n
  induction n with
  | zero =>
    intro l hl
    cases l with
    | onil => simp [setKey, lookupKey]
    | ocons k' w r => simp [olength] at hl
  | succ n ih =>
    intro l hl
    cases l with
    | onil => simp [setKey, lookupKey]
    | ocons k' w r =>
      have hr : olength r ≤ n := by simp [olength] at hl; omega
      by_cases h : k' = k <;> simp [setKey, h, lookupKey, ih r hr]

theorem lookupKey_setKey_same (l : JObj) (k : List Char) (v : JVal) :
    lookupKey (setKey l k v) k = some v :=
  lookupKey_setKey_same_aux k v (olength l) l le_rfl

theorem lookupKey_setKey_ne_aux (key k : List Char) (v : JVal) (hne : key ≠ k) :
    ∀ (n : Nat) (l : JObj), olength l ≤ n →
      lookupKey (setKey l k v) key = lookupKey l key := by
  intro n
  induction n with
  | zero =>
    intro l hl
    cases l with
    | onil => simp [setKey, lookupKey, Ne.symm hne]
    | ocons k' w r => simp [olength] at hl
  | succ n ih =>
    intro l hl
    cases l with
    | onil => simp [setKey, lookupKey, Ne.symm hne]
    | ocons k' w r =>
      have hr : olength r ≤ n := by simp [olength] at hl; omega
      by_cases h : k' = k
      · subst h
        simp [setKey, lookupKey, Ne.symm hne]
      · simp [setKey, h, lookupKey, ih r hr]

theorem lookupKey_setKey_ne (l : JObj) (key k : List Char) (v : JVal)
    (hne : key ≠ k) :
    lookupKey (setKey l k v) key = lookupKey l key :=
  lookupKey_setKey_ne_aux key k v hne (olength l) l le_rfl

theorem setKey_ne_onil (l : JObj) (k : List Char) (v : JVal) :
    setKey l k v ≠ .onil := by
  cases l with
  | onil => simp [setKey]
  | ocons k' w r => by_cases h : k' = k <;> simp [setKey, h]

theorem dropAmendedKeys_setKey_aux (k : List Char) (v : JVal)
    (hk : k = keyMain ∨ k = keyModule ∨ k = keyEs2015 ∨ k = keyTypings) :
    ∀ (n : Nat) (l : JObj), olength l ≤ n →
      dropAmendedKeys (setKey l k v) = dropAmendedKeys l := by
  intro n
  induction n with
  | zero =>
    intro l hl
    cases l with
    | onil => simp [setKey, dropAmendedKeys, hk]
    | ocons k' w r => simp [olength] at hl
  | succ n ih =>
    intro l hl
    cases l with
    | onil => simp [setKey, dropAmendedKeys, hk]
    | ocons k' w r =>
      have hr : olength r ≤ n := by simp [olength] at hl; omega
      by_cases h : k' = k
      · subst h
        simp [setKey, dropAmendedKeys, hk]
      · simp [setKey, h, dropAmendedKeys, ih r hr]

theorem dropAmendedKeys_setKey (l : JObj) (k : List Char) (v : JVal)
    (hk : k = keyMain ∨ k = keyModule ∨ k = keyEs2015 ∨ k = keyTypings) :
    dropAmendedKeys (setKey l k v) = dropAmendedKeys l :=
  dropAmendedKeys_setKey_aux k v hk (olength l) l le_rfl

theorem amendRel_eq_specRel (parts : List (List Char)) (h : parts ≠ []) :
    amendRel parts = specRel parts := by
  cases parts with
  | nil => exact absurd rfl h
  | cons p rest =>
    cases rest with
    | nil => rfl
    | cons q rest' =>
      have hne : joinWith '/'
          (List.replicate ((p :: q :: rest').length - 1) (("..").data)) ≠ [] := by
        have hlen : (p :: q :: rest').length - 1 = rest'.length + 1 := by simp
        rw [hlen, List.replicate_succ]
        rw [show (("..").data) = '.' :: ('.' :: []) from rfl]
        rw [joinWith_cons_head]
        simp
      unfold amendRel specRel
      rw [if_neg hne, if_neg (by simp : ¬(p :: q :: rest').length = 1)]

/-- C3: for a package whose `name`, after dropping a leading scope segment,
has segments `s1..sk`, the amended descriptor maps
`main` to `<rel>/bundles/<s1-..-sk joined by dashes>.umd.js`,
`module` to `<rel>/esm5/<sk>.js`, `es2015` to `<rel>/esm2015/<sk>.js`, and
`typings` to `./<sk>.d.ts`, with `rel = "."` for `k = 1` and otherwise
`k-1` repetitions of `..` joined by `'/'` (`specRel`). -/
theorem c3_amend_package_json (pkg : JObj) (nm : List Char)
    (hname : lookupKey pkg keyName = some (.jstr nm))
    (hparts : dropScope (splitOnChar '/' nm) ≠ []) :
    amendFields pkg = .ok (amendFieldsCore pkg (dropScope (splitOnChar '/' nm)))
    ∧ (∀ parts : List (List Char), parts = dropScope (splitOnChar '/' nm) →
      lookupKey (amendFieldsCore pkg parts) keyMain
          = some (.jstr (specRel parts ++ ("/bundles/").data
            ++ joinWith '-' parts ++ (".umd.js").data))
      ∧ lookupKey (amendFieldsCore pkg parts) keyModule
          = some (.jstr (specRel parts ++ ("/esm5/").data
            ++ parts.getLastD [] ++ (".js").data))
      ∧ lookupKey (amendFieldsCore pkg parts) keyEs2015
          = some (.jstr (specRel parts ++ ("/esm2015/").data
            ++ parts.getLastD [] ++ (".js").data))
      ∧ lookupKey (amendFieldsCore pkg parts) keyTypings
          = some (.jstr (("./").data ++ parts.getLastD [] ++ (".d.ts").data))) := by
  constructor
  · unfold amendFields
    rw [hname]
    exact if_neg hparts
  · intro parts hp
    have hne : parts ≠ [] := by rw [hp]; exact hparts
    have hrel := amendRel_eq_specRel parts hne
    unfold amendFieldsCore
    refine ⟨?_, ?_, ?_, ?_⟩
    · rw [lookupKey_setKey_ne _ _ _ _ (by decide), lookupKey_setKey_ne _ _ _ _ (by decide),
        lookupKey_setKey_ne _ _ _ _ (by decide), lookupKey_setKey_same, hrel]
    · rw [lookupKey_setKey_ne _ _ _ _ (by decide), lookupKey_setKey_ne _ _ _ _ (by decide),
        lookupKey_setKey_same, hrel]
    · rw [lookupKey_setKey_ne _ _ _ _ (by decide), lookupKey_setKey_same, hrel]
    · rw [lookupKey_setKey_same]

/-- Witness for C3 on the descriptor with name `@angular/core`. -/
theorem c3_amend_package_json_witness :
    lookupKey (amendFieldsCore (.ocons keyName (.jstr (("@angular/core").data)) .onil)
        [("core").data]) keyMain = some (.jstr (("./bundles/core.umd.js").data))
    ∧ lookupKey (amendFieldsCore (.ocons keyName (.jstr (("@angular/core").data)) .onil)
        [("core").data]) keyModule = some (.jstr (("./esm5/core.js").data))
    ∧ lookupKey (amendFieldsCore (.ocons keyName (.jstr (("@angular/core").data)) .onil)
        [("core").data]) keyEs2015 = some (.jstr (("./esm2015/core.js").data))
    ∧ lookupKey (amendFieldsCore (.ocons keyName (.jstr (("@angular/core").data)) .onil)
        [("core").data]) keyTypings = some (.jstr (("./core.d.ts").data))
    ∧ amendFields (.ocons keyName (.jstr (("@angular/core").data)) .onil)
        = .ok (amendFieldsCore (.ocons keyName (.jstr (("@angular/core").data)) .onil)
            [("core").data]) := by
  have h := c3_amend_package_json
    (.ocons keyName (.jstr (("@angular/core").data)) .onil)
    (("@angular/core").data) rfl (by decide)
  have h3 := h.2 [("core").data] (by decide)
  exact ⟨h3.1, h3.2.1, h3.2.2.1, h3.2.2.2, h.1⟩

theorem serP_obj_getLast (gap : Nat) (fs : JObj) (h : fs ≠ .onil) :
    (serP gap (.jobj fs)).getLast? = some '\x7d' := by
  cases fs with
  | onil => exact absurd rfl h
  | ocons k v r =>
    show ('\x7b' :: '\n' :: (serPObj (gap + 1) (.ocons k v r)
      ++ ('\n' :: spaces gap) ++ ('\x7d' :: []))).getLast? = some '\x7d'
    rw [show '\x7b' :: '\n' :: (serPObj (gap + 1) (.ocons k v r)
        ++ ('\n' :: spaces gap) ++ ('\x7d' :: []))
      = ('\x7b' :: '\n' :: (serPObj (gap + 1) (.ocons k v r)
        ++ ('\n' :: spaces gap))) ++ ('\x7d' :: []) by simp]
    rw [List.getLast?_concat]

/-- C4 (amended): the amended descriptor keeps every field other than
`main`/`module`/`es2015`/`typings` in order with its value, is serialized
by the two-space pretty printer, and its text ends with the closing brace:
there is NO trailing newline. -/
theorem c4_descriptor_serialization (pkg : JObj) (nm : List Char)
    (hname : lookupKey pkg keyName = some (.jstr nm))
    (hparts : dropScope (splitOnChar '/' nm) ≠ []) :
    dropAmendedKeys (amendFieldsCore pkg (dropScope (splitOnChar '/' nm)))
        = dropAmendedKeys pkg
    ∧ amendPackageJson pkg
        = .ok (serP 0 (.jobj (amendFieldsCore pkg (dropScope (splitOnChar '/' nm)))))
    ∧ (∀ s : List Char, amendPackageJson pkg = .ok s → s.getLast? = some '\x7d') := by
  have hfields : amendFields pkg
      = .ok (amendFieldsCore pkg (dropScope (splitOnChar '/' nm))) := by
    unfold amendFields
    rw [hname]
    exact if_neg hparts
  have hjson : amendPackageJson pkg
      = .ok (serP 0 (.jobj (amendFieldsCore pkg (dropScope (splitOnChar '/' nm))))) := by
    unfold amendPackageJson
    rw [hfields]
    rfl
  refine ⟨?_, hjson, ?_⟩
  · unfold amendFieldsCore
    rw [dropAmendedKeys_setKey _ _ _ (by simp [keyTypings]),
      dropAmendedKeys_setKey _ _ _ (by simp [keyEs2015]),
      dropAmendedKeys_setKey _ _ _ (by simp [keyModule]),
      dropAmendedKeys_setKey _ _ _ (by simp [keyMain])]
  · intro s hs
    rw [hjson] at hs
    injection hs with h
    rw [← h]
    exact serP_obj_getLast 0 _ (setKey_ne_onil _ _ _)

/-- Counterexample to C4 as stated: the serialized descriptor's last
character is the closing brace, not a newline — `JSON.stringify` emits no
trailing newline and `main` writes the content unchanged. -/
theorem c4_trailing_newline_counterexample :
    (amendPackageJson (.ocons keyName (.jstr (("@angular/core").data)) .onil)).map
        (fun s => s.getLast?)
      = .ok (some '\x7d')
    ∧ ('\x7d' : Char) ≠ '\n' := by
  exact ⟨rfl, by decide⟩

/-- Witness for C4's amended theorem on the `@angular/core` descriptor. -/
theorem c4_descriptor_serialization_witness :
    dropAmendedKeys (amendFieldsCore
        (.ocons keyName (.jstr (("@angular/core").data)) .onil)
        (dropScope (splitOnChar '/' (("@angular/core").data))))
      = dropAmendedKeys (.ocons keyName (.jstr (("@angular/core").data)) .onil)
    ∧ (serP 0 (.jobj (amendFieldsCore
        (.ocons keyName (.jstr (("@angular/core").data)) .onil)
        (dropScope (splitOnChar '/' (("@angular/core").data)))))).getLast?
      = some '\x7d' := by
  have h := c4_descriptor_serialization
    (.ocons keyName (.jstr (("@angular/core").data)) .onil)
    (("@angular/core").data) rfl (by decide)
  exact ⟨h.1, h.2.2 _ h.2.1⟩

/-- The flat-module-index redirect metadata for one secondary entry point
(`packager.ts` lines 158-164): compact `JSON.stringify` of the object
literal, then `'\n'`. -/
def secondaryMetadataContent (baseName : List Char) : List Char :=
  serC (.jobj (.ocons (("__symbolic").data) (.jstr (("module").data))
    (.ocons (("version").data) (.jnum 3)
    (.ocons (("metadata").data) (.jobj .onil)
    (.ocons (("exports").data) (.jarr (.acons (.jobj (.ocons (("from").data)
      (.jstr (("./").data ++ baseName ++ ('/' :: baseName))) .onil)) .anil))
    (.ocons (("flatModuleIndexRedirect").data) (.jbool true) .onil))))))
  ++ ('\n' :: [])

/-- The redirect declaration stub for one secondary entry point
(`packager.ts` lines 166-172): the license banner, one space, then the
template literal holding the re-export line between two newlines. -/
def secondaryDtsContent (banner baseName : List Char) : List Char :=
  banner ++ (" ").data
    ++ ('\n' :: ((" export * from './").data ++ baseName
      ++ ('/' :: baseName) ++ ("'\n").data))

/-- The two files synthesized for one secondary entry-point name
(`packager.ts` lines 154-173), as (path, content) pairs. -/
def synthesizeSecondary (out banner name : List Char) :
    List (List Char × List Char) :=
  [(nodeJoin [out, nodeJoin (splitOnChar '/' name).dropLast,
      lastSeg name ++ extMeta], secondaryMetadataContent (lastSeg name)),
   (nodeJoin [out, nodeJoin (splitOnChar '/' name).dropLast,
      lastSeg name ++ extDts], secondaryDtsContent banner (lastSeg name))]

/-- Fuel-driven count of the non-overlapping occurrences of a literal
pattern, scanned the way JavaScript global replacement scans. -/
def countOccurGo (pat : List Char) : Nat → List Char → Nat
  | _, [] => 0
  | 0, _ => 0
  | fuel + 1, c :: rest =>
    if pat ≠ [] ∧ lstartsWith (c :: rest) pat = true then
      1 + countOccurGo pat fuel (List.drop pat.length (c :: rest))
    else
      countOccurGo pat fuel rest

def countOccur (pat s : List Char) : Nat :=
  countOccurGo pat s.length s

/-- The exact single-line metadata document the specification prescribes
for a secondary entry point with last segment `L`. -/
def claimedSecondaryMetadata (lastSegment : List Char) : List Char :=
  ("\x7b\"__symbolic\":\"module\",\"version\":3,\"metadata\":\x7b\x7d,\"exports\":[\x7b\"from\":\"./").data
    ++ lastSegment ++ ('/' :: lastSegment)
    ++ ("\"\x7d],\"flatModuleIndexRedirect\":true\x7d\n").data

theorem jsonEscape_nil : jsonEscape [] = [] := rfl

theorem jsonEscape_append (a b : List Char) :
    jsonEscape (a ++ b) = jsonEscape a ++ jsonEscape b := by
  unfold jsonEscape
  rw [List.map_append, List.flatten_append]

theorem jsonEscape_cons (c : Char) (l : List Char) :
    jsonEscape (c :: l) = escapeChar c ++ jsonEscape l := by
  unfold jsonEscape
  rw [List.map_cons, List.flatten_cons]

theorem lstartsWith_self_append (p t : List Char) :
    lstartsWith (p ++ t) p = true := by
  induction p with
  | nil => cases t <;> rfl
  | cons a ps ih => simp [List.cons_append, lstartsWith, ih]

theorem countOccurGo_zero_of_no_occurrence (pat : List Char) :
    ∀ (f : Nat) (s : List Char), occursIn pat s = false →
      countOccurGo pat f s = 0 := by
  intro f
  induction f with
  | zero =>
    intro s _
    cases s <;> rfl
  | succ f ih =>
    intro s h
    cases s with
    | nil => rfl
    | cons c rest =>
      simp only [occursIn, Bool.or_eq_false_iff] at h
      obtain ⟨h1, h2⟩ := h
      simp only [countOccurGo]
      rw [if_neg (fun hc => by rw [h1] at hc; simp at hc)]
      exact ih rest h2

/-- Scan of a string region: `noMatchScan pat A tail = true` states that no
occurrence of `pat` in `A ++ tail` starts inside `A`. -/
def noMatchScan (pat : List Char) : List Char → List Char → Bool
  | [], _ => true
  | c :: rest, tail => !(lstartsWith ((c :: rest) ++ tail) pat) && noMatchScan pat rest tail

theorem countOccur_single (pat A B : List Char) (hp : pat ≠ [])
    (hA : noMatchScan pat A (pat ++ B) = true)
    (hB : occursIn pat B = false) :
    countOccur pat (A ++ (pat ++ B)) = 1 := by
  induction A with
  | nil =>
    show countOccur pat ([] ++ (pat ++ B)) = 1
    rw [List.nil_append]
    match pat, hp with
    | p0 :: ps, _ =>
      show countOccurGo (p0 :: ps) ((p0 :: ps) ++ B).length ((p0 :: ps) ++ B) = 1
      have hlen : ((p0 :: ps) ++ B).length = (ps ++ B).length + 1 := by simp
      rw [hlen]
      show countOccurGo (p0 :: ps) ((ps ++ B).length + 1) (p0 :: (ps ++ B)) = 1
      simp only [countOccurGo]
      rw [if_pos ⟨by simp, by
        have h := lstartsWith_self_append (p0 :: ps) B
        rw [List.cons_append] at h
        exact h⟩]
      have hdrop : List.drop (p0 :: ps).length (p0 :: (ps ++ B)) = B := by
        simp only [List.length_cons, List.drop_succ_cons]
        exact List.drop_left ps B
      rw [hdrop, countOccurGo_zero_of_no_occurrence (p0 :: ps) ((ps ++ B).length) B hB]
  | cons c A' ih =>
    have hA' : noMatchScan pat A' (pat ++ B) = true := by
      simp only [noMatchScan, Bool.and_eq_true] at hA
      exact hA.2
    have h0 : lstartsWith (c :: (A' ++ (pat ++ B))) pat = false := by
      simp only [noMatchScan, Bool.and_eq_true, Bool.not_eq_true'] at hA
      have h := hA.1
      rwa [List.cons_append] at h
    show countOccurGo pat (((c :: A') ++ (pat ++ B)).length) ((c :: A') ++ (pat ++ B)) = 1
    have hlen : ((c :: A') ++ (pat ++ B)).length = (A' ++ (pat ++ B)).length + 1 := by
      simp
    rw [hlen]
    show countOccurGo pat ((A' ++ (pat ++ B)).length + 1) (c :: (A' ++ (pat ++ B))) = 1
    simp only [countOccurGo]
    rw [if_neg (fun hc => by rw [h0] at hc; simp at hc)]
    exact ih hA'

theorem occursIn_append_self (pat a b : List Char) (hp : pat ≠ []) :
    occursIn pat (a ++ (pat ++ b)) = true := by
  induction a with
  | nil =>
    rw [List.nil_append]
    match pat, hp with
    | p0 :: ps, _ =>
      show occursIn (p0 :: ps) ((p0 :: ps) ++ b) = true
      rw [List.cons_append]
      simp only [occursIn]
      have h := lstartsWith_self_append (p0 :: ps) b
      rw [List.cons_append] at h
      rw [h]
      simp
  | cons c a' ih =>
    rw [List.cons_append]
    simp only [occursIn]
    rw [ih]
    simp

/-- C9 (amended): for every secondary entry point with last segment `L`
(`L` free of characters requiring JSON escapes), the synthesized
`<L>.metadata.json` content is exactly the prescribed single-line redirect
document followed by a newline; and for every banner and `L` such that no
re-export text starts in the banner region and none hides in the
`'./L/L'` tail, the synthesized `<L>.d.ts` contains exactly one re-export
statement, pointing to `./L/L` — in particular for name `testing/foo`.
(A banner that itself contains a re-export refutes the unconditional
claim; see the counterexample.) -/
theorem c9_secondary_synthesis :
    (∀ lastSegment : List Char, jsonEscape lastSegment = lastSegment →
      secondaryMetadataContent lastSegment = claimedSecondaryMetadata lastSegment)
    ∧ (∀ banner lastSegment : List Char,
        noMatchScan (("export * from").data) (banner ++ (" \n ").data)
            ((("export * from").data) ++ ((" './").data ++ lastSegment
              ++ ('/' :: lastSegment) ++ ("'\n").data)) = true →
        occursIn (("export * from").data) ((" './").data ++ lastSegment
            ++ ('/' :: lastSegment) ++ ("'\n").data) = false →
        countOccur (("export * from").data)
            (secondaryDtsContent banner lastSegment) = 1
        ∧ occursIn (("'./").data ++ lastSegment ++ ('/' :: (lastSegment ++ ("'").data)))
            (secondaryDtsContent banner lastSegment) = true)
    ∧ synthesizeSecondary (("o").data) [] (("testing/foo").data)
        = [((("o/testing/foo.metadata.json").data),
            claimedSecondaryMetadata (("foo").data)),
           ((("o/testing/foo.d.ts").data),
            secondaryDtsContent [] (("foo").data))]
    ∧ countOccur (("export * from").data) (secondaryDtsContent [] (("foo").data)) = 1
    ∧ occursIn (("'./foo/foo'").data) (secondaryDtsContent [] (("foo").data)) = true := by
  refine ⟨?_, ?_, rfl, rfl, rfl⟩
  · intro L hEsc
    simp only [secondaryMetadataContent, claimedSecondaryMetadata, serC, serCObj, serCArr,
      quoteStr, (show (toString (3 : Int)).data = '3' :: [] from rfl)]
    simp [jsonEscape_append, jsonEscape_cons, jsonEscape_nil, hEsc, escapeChar]
  · intro banner L hScan hTail
    have hcontent : secondaryDtsContent banner L
        = (banner ++ (" \n ").data) ++ ((("export * from").data)
          ++ ((" './").data ++ L ++ ('/' :: L) ++ ("'\n").data)) := by
      simp [secondaryDtsContent]
    constructor
    · rw [hcontent]
      exact countOccur_single _ _ _ (by simp) hScan hTail
    · have hcontent2 : secondaryDtsContent banner L
          = (banner ++ (" \n export * from ").data)
            ++ ((("'./").data ++ L ++ ('/' :: (L ++ ("'").data))) ++ ('\n' :: [])) := by
        simp [secondaryDtsContent]
      rw [hcontent2]
      exact occursIn_append_self _ _ _ (by simp)

/-- Counterexample to C9 as stated: a license banner that itself contains a
re-export makes the synthesized `.d.ts` contain two re-export statements,
not exactly one. -/
theorem c9_banner_counterexample :
    countOccur (("export * from").data)
        (secondaryDtsContent (("export * from './a/a'").data) (("foo").data)) ≠ 1 := by
  decide

/-- Witness for C9 at last segment `foo` with a nonempty banner. -/
theorem c9_secondary_synthesis_witness :
    (jsonEscape (("foo").data) = ("foo").data
      ∧ secondaryMetadataContent (("foo").data) = claimedSecondaryMetadata (("foo").data))
    ∧ countOccur (("export * from").data)
        (secondaryDtsContent (("banner").data) (("foo").data)) = 1
    ∧ occursIn (("'./").data ++ (("foo").data)
        ++ ('/' :: ((("foo").data) ++ ("'").data)))
        (secondaryDtsContent (("banner").data) (("foo").data)) = true := by
  refine ⟨⟨rfl, c9_secondary_synthesis.1 (("foo").data) rfl⟩, ?_⟩
  exact c9_secondary_synthesis.2.1 (("banner").data) (("foo").data) (by decide) (by decide)

end Packager

